import Mathlib

/-!
Shallow embedding of the GenomePlot genome layout engine
(`genomePlot.js`): the `Chromosome` entity with its cytobands,
centromere and per-label raster bins, the chromosome stacking
algorithm, chromosome filtering, the interval rasterizer, the
band-appearance resolver and the BED-ingestion entry point.

Coordinates are natural numbers (the source obtains them through
`parseInt` on non-negative file fields).  JavaScript sparse arrays of
counters are modelled as `List Nat` where a write past the end pads
with zeroes (the source reads missing entries as `undefined` and
coerces them to `0` via `|| 0`).  `Math.round(a / s)` on exact
non-negative rationals equals `⌊(2a + s) / (2s)⌋`, which is the model
used here.  Opacities are exact rationals.

The interval primitive `ChromRegion` (`@givengine/chrom-region`) is an
external npm dependency whose source is not part of this repository;
its comparator, `concat` and `overlaps` members are modelled from the
specification text and marked as such in their doc comments.
-/

/-- Read entry `i` of a JavaScript numeric array: missing entries
(`undefined`) are coerced to `0` by the source's `(arr[i] || 0)`. -/
def jsGet (arr : List Nat) (i : Nat) : Nat :=
  arr.getD i 0

/-- Write entry `i` of a JavaScript numeric array: writing past the end
grows the array to length `i + 1`, with the skipped entries read back
as `0`. -/
def jsSet (arr : List Nat) (i : Nat) (v : Nat) : List Nat :=
  if i < arr.length then arr.set i v
  else arr ++ List.replicate (i - arr.length) 0 ++ [v]

/-- Model of JavaScript `Math.round (a / s)` for natural `a` and
positive natural `s`: the exact rational `a / s` rounded half-up. -/
def jsRound (a s : Nat) : Nat :=
  (2 * a + s) / (2 * s)

/-- Increment entry `i` of a counter array, as the loop body
`this.data[label][i] = (this.data[label][i] || 0) + 1` does. -/
def bumpBin (arr : List Nat) (i : Nat) : List Nat :=
  jsSet arr i (jsGet arr i + 1)

/-- Run the rasterizing `for` loop of `Chromosome.addData`: increment
every bin index from `lo` to `hi` inclusive (no iterations when
`lo > hi`). -/
def incrRange (arr : List Nat) (lo hi : Nat) : List Nat :=
  (List.range' lo (hi + 1 - lo)).foldl bumpBin arr

/-- Value of a genomic interval as handed to `ChromRegion`: a
chromosome name, a start, an end and an optional name. -/
structure Region where
  chr : String
  start : Nat
  chromEnd : Nat
  name : String
deriving DecidableEq, Repr

/-- Cytoband record parsed from a cytobandIdeo line: a region plus its
Giemsa stain code. -/
structure Cytoband where
  chr : String
  start : Nat
  chromEnd : Nat
  name : String
  gieStain : String
deriving DecidableEq, Repr

/-- State of one `Chromosome` object: the underlying region fields of
the `ChromRegion` superclass plus the `cytobands`, `data` and
`centromere` members added by the subclass.  The per-label `data`
member is an association list because JavaScript object keys are
strings. -/
structure Chromosome where
  chr : String
  start : Nat
  chromEnd : Nat
  name : String
  cytobands : List Cytoband
  data : List (String × List Nat)
  centromere : Option Cytoband
deriving DecidableEq, Repr

instance : Inhabited Chromosome :=
  ⟨⟨"", 0, 0, "", [], [], none⟩⟩

/-- The `Chromosome` constructor: `new Chromosome(name, size)` builds a
region spanning `[0, size]` named `name` with empty cytobands, empty
data and no centromere. -/
def mkChromosome (name : String) (size : Nat) : Chromosome :=
  { chr := name
    start := 0
    chromEnd := size
    name := name
    cytobands := []
    data := []
    centromere := none }

/-- Decide whether `pat` occurs as a contiguous substring of `s`,
modelling a JavaScript regex match against a string literal
alternative. -/
def containsSub (pat : List Char) : List Char → Bool
  | [] => pat.isPrefixOf []
  | c :: rest => pat.isPrefixOf (c :: rest) || containsSub pat rest

/-- Getter `Chromosome.isRegular`: the name matches none of the regex
alternatives `(chrUn)|_|(chrM)` (a case-sensitive substring test). -/
def Chromosome.isRegular (c : Chromosome) : Bool :=
  !(containsSub "chrUn".data c.name.data ||
    containsSub "_".data c.name.data ||
    containsSub "chrM".data c.name.data)

/-- Getter `Chromosome.isMitochondrial`: the name matches `/^chrM$/i`,
i.e. equals `chrM` up to ASCII case. -/
def Chromosome.isMitochondrial (c : Chromosome) : Bool :=
  c.name.data.map Char.toLower = "chrm".data

/-- Lexicographic strict ordering on character lists by code point,
used to model comparison of chromosome names. -/
def strLTb : List Char → List Char → Bool
  | [], [] => false
  | [], _ :: _ => true
  | _ :: _, [] => false
  | a :: as, b :: bs =>
      if a.toNat < b.toNat then true
      else if b.toNat < a.toNat then false
      else strLTb as bs

theorem charToNat_inj {a b : Char} (h : a.toNat = b.toNat) : a = b :=
  Char.ext (UInt32.toNat.inj h)

theorem strLTb_connex : ∀ xs ys : List Char,
    strLTb xs ys = false → strLTb ys xs = false → xs = ys := by
  intro xs
  induction xs with
  | nil =>
      intro ys h1 _
      cases ys with
      | nil => rfl
      | cons b bs => simp [strLTb] at h1
  | cons a as ih =>
      intro ys h1 h2
      cases ys with
      | nil => simp [strLTb] at h2
      | cons b bs =>
          unfold strLTb at h1 h2
          rcases Nat.lt_trichotomy a.toNat b.toNat with h | h | h
          · rw [if_pos h] at h1
            exact absurd h1 (by simp)
          · have hab : a = b := charToNat_inj h
            subst hab
            rw [if_neg (by omega), if_neg (by omega)] at h1
            rw [if_neg (by omega), if_neg (by omega)] at h2
            rw [ih bs h1 h2]
          · rw [if_pos h] at h2
            exact absurd h2 (by simp)

theorem strLTb_trans : ∀ xs ys zs : List Char,
    strLTb xs ys = true → strLTb ys zs = true → strLTb xs zs = true := by
  intro xs
  induction xs with
  | nil =>
      intro ys zs h1 h2
      cases ys with
      | nil => exact h2
      | cons b bs =>
          cases zs with
          | nil => simp [strLTb] at h2
          | cons c cs => rfl
  | cons a as ih =>
      intro ys zs h1 h2
      cases ys with
      | nil => simp [strLTb] at h1
      | cons b bs =>
          cases zs with
          | nil => simp [strLTb] at h2
          | cons c cs =>
              unfold strLTb at h1 h2 ⊢
              rcases Nat.lt_trichotomy a.toNat b.toNat with hab | hab | hab
              · rcases Nat.lt_trichotomy b.toNat c.toNat with hbc | hbc | hbc
                · rw [if_pos (by omega)]
                · rw [if_pos (by omega)]
                · rw [if_pos hbc] at h2
                  rw [if_neg (by omega)] at h2
                  exact absurd h2 (by simp)
              · rcases Nat.lt_trichotomy b.toNat c.toNat with hbc | hbc | hbc
                · rw [if_pos (by omega)]
                · rw [if_neg (by omega), if_neg (by omega)] at h1
                  rw [if_neg (by omega), if_neg (by omega)] at h2
                  rw [if_neg (by omega), if_neg (by omega)]
                  exact ih bs cs h1 h2
                · rw [if_pos hbc] at h2
                  rw [if_neg (by omega)] at h2
                  exact absurd h2 (by simp)
              · rw [if_pos hab] at h1
                rw [if_neg (by omega)] at h1
                exact absurd h1 (by simp)

/-- Modelled from the spec: the canonical `ChromRegion` ordering used
by `ChromRegion.compare` ("by chromosome name, then start, then end");
the comparator itself lives in the external `@givengine/chrom-region`
package, which is absent from the repository source. -/
def keyLE (a b : String × Nat × Nat) : Prop :=
  strLTb a.1.data b.1.data = true ∨
    (a.1 = b.1 ∧ (a.2.1 < b.2.1 ∨ (a.2.1 = b.2.1 ∧ a.2.2 ≤ b.2.2)))

instance : DecidableRel keyLE := fun a b => by
  unfold keyLE; infer_instance

theorem keyLE_total (a b : String × Nat × Nat) : keyLE a b ∨ keyLE b a := by
  rcases h1 : strLTb a.1.data b.1.data with _ | _
  · rcases h2 : strLTb b.1.data a.1.data with _ | _
    · have he : a.1 = b.1 := String.ext (strLTb_connex _ _ h1 h2)
      rcases lt_trichotomy a.2.1 b.2.1 with h | h | h
      · exact Or.inl (Or.inr ⟨he, Or.inl h⟩)
      · rcases le_total a.2.2 b.2.2 with h3 | h3
        · exact Or.inl (Or.inr ⟨he, Or.inr ⟨h, h3⟩⟩)
        · exact Or.inr (Or.inr ⟨he.symm, Or.inr ⟨h.symm, h3⟩⟩)
      · exact Or.inr (Or.inr ⟨he.symm, Or.inl h⟩)
    · exact Or.inr (Or.inl h2)
  · exact Or.inl (Or.inl h1)

theorem keyLE_trans {a b c : String × Nat × Nat}
    (hab : keyLE a b) (hbc : keyLE b c) : keyLE a c := by
  rcases hab with h | ⟨he, h⟩
  · rcases hbc with h2 | ⟨he2, _⟩
    · exact Or.inl (strLTb_trans _ _ _ h h2)
    · exact Or.inl (he2 ▸ h)
  · rcases hbc with h2 | ⟨he2, h3⟩
    · exact Or.inl (he ▸ h2)
    · refine Or.inr ⟨he.trans he2, ?_⟩
      rcases h with h | ⟨hs, h⟩
      · rcases h3 with h3 | ⟨hs3, _⟩
        · exact Or.inl (h.trans h3)
        · exact Or.inl (hs3 ▸ h)
      · rcases h3 with h3 | ⟨hs3, h4⟩
        · exact Or.inl (hs ▸ h3)
        · exact Or.inr ⟨hs.trans hs3, h.trans h4⟩

/-- Canonical ordering on whole chromosomes, via their region key. -/
def chromLE (a b : Chromosome) : Prop :=
  keyLE (a.chr, a.start, a.chromEnd) (b.chr, b.start, b.chromEnd)

instance : DecidableRel chromLE := fun a b => by
  unfold chromLE; infer_instance

instance : IsTotal Chromosome chromLE :=
  ⟨fun x y => keyLE_total (x.chr, x.start, x.chromEnd)
    (y.chr, y.start, y.chromEnd)⟩

instance : IsTrans Chromosome chromLE :=
  ⟨fun _ _ _ => keyLE_trans⟩

/-- Canonical ordering on cytobands, via their region key. -/
def cytoLE (a b : Cytoband) : Prop :=
  keyLE (a.chr, a.start, a.chromEnd) (b.chr, b.start, b.chromEnd)

instance : DecidableRel cytoLE := fun a b => by
  unfold cytoLE; infer_instance

instance : IsTotal Cytoband cytoLE :=
  ⟨fun x y => keyLE_total (x.chr, x.start, x.chromEnd)
    (y.chr, y.start, y.chromEnd)⟩

instance : IsTrans Cytoband cytoLE :=
  ⟨fun _ _ _ => keyLE_trans⟩

/-- Sorting a chromosome array with `Array.prototype.sort` under the
canonical comparator (a stable sort, modelled by insertion sort). -/
def canonicalSort (l : List Chromosome) : List Chromosome :=
  List.insertionSort chromLE l

/-- Modelled from the spec: `ChromRegion.concat` as used on a second
`acen` band, which per §3 of the specification merges it into the
existing centromere "by extending its end, never its start"; the
method itself lives in the external `@givengine/chrom-region` package,
which is absent from the repository source. -/
def concatRegion (cen band : Cytoband) : Cytoband :=
  { cen with chromEnd := max cen.chromEnd band.chromEnd }

/-- Method `Chromosome.addCytoband`: push the band, merge `acen` bands
into the centromere, grow the chromosome end if the band extends past
it, then re-sort the band list with the canonical comparator. -/
def addCytoband (c : Chromosome) (cytoband : Cytoband) : Chromosome :=
  let pushed := c.cytobands ++ [cytoband]
  let cen :=
    if cytoband.gieStain = "acen" then
      match c.centromere with
      | some existing => some (concatRegion existing cytoband)
      | none => some cytoband
    else c.centromere
  let newEnd := if c.chromEnd < cytoband.chromEnd then cytoband.chromEnd
    else c.chromEnd
  { c with
    cytobands := List.insertionSort cytoLE pushed
    centromere := cen
    chromEnd := newEnd }

/-- Method `Chromosome.initData`: create an empty bin array for a new
label; if the label already exists the source only prints a warning
and leaves the existing array alone. -/
def initData (c : Chromosome) (label : String) : Chromosome :=
  if (c.data.lookup label).isSome then c
  else { c with data := c.data ++ [(label, [])] }

/-- Update the bin array stored under `label`, leaving every other
label untouched.  The source would throw on a label that was never
initialized (`this.data[label][i]` with `undefined`); this model makes
that case a no-op, and every theorem about `addData` assumes the label
is present. -/
def updateData (d : List (String × List Nat)) (label : String)
    (f : List Nat → List Nat) : List (String × List Nat) :=
  match d with
  | [] => []
  | (k, v) :: rest =>
      if k = label then (k, f v) :: rest
      else (k, v) :: updateData rest label f

/-- Method `Chromosome.addData`: a no-op when the BED entry names a
different chromosome; otherwise increment every bin from
`Math.round(start / dataScale)` to `Math.round(end / dataScale)`
inclusive under the given label. -/
def addData (scale : Nat) (c : Chromosome) (label : String)
    (bedEntry : Region) : Chromosome :=
  if c.chr ≠ bedEntry.chr then c
  else
    { c with
      data := updateData c.data label
        (fun arr => incrRange arr (jsRound bedEntry.start scale)
          (jsRound bedEntry.chromEnd scale)) }

/-- Read bin `i` of the array stored for `label` (0 when the label was
never initialized or the bin never written). -/
def binCount (c : Chromosome) (label : String) (i : Nat) : Nat :=
  jsGet ((c.data.lookup label).getD []) i

/-- Parse the digits captured by the regex group in `/^gpos(\d+)/`. -/
def digitsToNat (ds : List Char) : Nat :=
  ds.foldl (fun n ch => n * 10 + (ch.toNat - 48)) 0

/-- Match `/^gpos(\d+)/` against a stain string: the string must start
with `gpos` followed by at least one digit, and the captured group is
the maximal run of digits after `gpos`. -/
def gposDigits : List Char → Option (List Char)
  | 'g' :: 'p' :: 'o' :: 's' :: rest =>
      let ds := rest.takeWhile Char.isDigit
      if ds = [] then none else some ds
  | _ => none

/-- Static method `Chromosome.getCytobandOpacity`: the stain-to-opacity
switch, with the `gpos<NN>` fallback clamped to `[0, 1]`. -/
def getCytobandOpacity (gieStain : String) : ℚ :=
  if gieStain = "stalk" then 3 / 4
  else if gieStain = "gpos100" then 1
  else if gieStain = "gvar" then 1
  else if gieStain = "gneg" then 0
  else
    match gposDigits gieStain.data with
    | none => 0
    | some ds =>
        let gposValue : ℚ := (digitsToNat ds : ℚ) / 100
        if gposValue < 0 then 0
        else if 1 < gposValue then 1
        else gposValue

/-- Modelled from the spec: `ChromRegion.overlaps` ("two intervals
overlap iff `chromosome` matches and numeric ranges intersect"), read
with half-open `[start, end)` ranges; the method itself lives in the
external `@givengine/chrom-region` package, which is absent from the
repository source. -/
def overlapsRegion (chr1 : String) (s1 e1 : Nat) (chr2 : String)
    (s2 e2 : Nat) : Bool :=
  chr1 = chr2 && s1 < e2 && s2 < e1

/-- One fill instruction emitted by `Chromosome.drawArm` for a band:
either the normal Giemsa fill with its opacity, or the hatch-pattern
overlay. -/
inductive FillInstr where
  | bandFill (opacity : ℚ) : FillInstr
  | hatch : FillInstr
deriving DecidableEq, Repr

/-- Fill instructions `Chromosome.drawArm` emits for one cytoband while
drawing one arm: nothing when the band does not overlap the arm,
otherwise the normal fill followed by a hatch overlay exactly when the
stain is `gvar` or `stalk`. -/
def bandFillInstrs (arm : Region) (band : Cytoband) : List FillInstr :=
  if overlapsRegion arm.chr arm.start arm.chromEnd band.chr band.start
      band.chromEnd then
    [FillInstr.bandFill (getCytobandOpacity band.gieStain)] ++
      (if band.gieStain = "gvar" || band.gieStain = "stalk" then
        [FillInstr.hatch] else [])
  else []

/-- Geometry resolved by `Chromosome.drawSelf`: either a list of arm
regions handed to `drawArm`, or the flat chromosome bar (whose width is
`end / dataScale`) when the chromosome owns no cytobands. -/
inductive ChromosomeRender where
  | arms (arms : List Region) : ChromosomeRender
  | bar (width : ℚ) : ChromosomeRender
deriving DecidableEq, Repr

/-- Method `Chromosome.drawSelf`, reduced to its geometry resolution:
with cytobands and a centromere the chromosome splits into two arms
around the centromere; with cytobands but no centromere the single arm
is the chromosome itself; with no cytobands the flat-bar path is
taken. -/
def drawSelf (scale : Nat) (c : Chromosome) : ChromosomeRender :=
  if c.cytobands.length ≠ 0 then
    ChromosomeRender.arms
      (match c.centromere with
       | some cen =>
           [{ chr := c.chr, start := c.start, chromEnd := cen.start,
              name := c.name ++ "_arm_1" },
            { chr := c.chr, start := cen.chromEnd, chromEnd := c.chromEnd,
              name := c.name ++ "_arm_2" }]
       | none =>
           [{ chr := c.chr, start := c.start, chromEnd := c.chromEnd,
              name := c.name }])
  else ChromosomeRender.bar ((c.chromEnd : ℚ) / (scale : ℚ))

/-- Function `filterChromosome`: sort with the canonical comparator,
then keep a chromosome iff
`(includeNonRegular || isRegular) || (includeMito && isMitochondrial)`. -/
def filterChromosome (chromosomes : List Chromosome)
    (includeNonRegular includeMito : Bool) : List Chromosome :=
  (canonicalSort chromosomes).filter fun chromosome =>
    (includeNonRegular || chromosome.isRegular) ||
      (includeMito && chromosome.isMitochondrial)

/-- Append `x` to the inner list at position `i`, as the source's
`stack[totalLength - 1 - index].push(chromosome)` does (the index is
always in range in the source). -/
def appendAt (stack : List (List α)) (i : Nat) (x : α) : List (List α) :=
  match stack, i with
  | [], _ => []
  | s :: rest, 0 => (s ++ [x]) :: rest
  | s :: rest, i + 1 => s :: appendAt rest i x

/-- One iteration of the `forEach` in `stackChromosomes`: indices in
the first half push a fresh singleton stack, later indices append to
the stack at `totalLength - 1 - index`. -/
def stackStep (totalLength : Nat) (stack : List (List α))
    (p : Nat × α) : List (List α) :=
  if p.1 < totalLength / 2 then stack ++ [[p.2]]
  else appendAt stack (totalLength - 1 - p.1) p.2

/-- Body of `stackChromosomes` after the initial sort:
`totalLength = parseInt((n + 1) / 2) * 2`, then the indexed `forEach`
over the list. -/
def stackCore (l : List α) : List (List α) :=
  l.enum.foldl (stackStep (((l.length + 1) / 2) * 2)) []

/-- Function `stackChromosomes`: sort the chromosome list canonically,
then run the complementary pairing fold. -/
def stackChromosomes (chromosomeList : List Chromosome) :
    List (List Chromosome) :=
  stackCore (canonicalSort chromosomeList)

/-- Character class of the `\s` regex escape, restricted to the ASCII
whitespace that occurs in the annotation and BED files. -/
def isWS (ch : Char) : Bool :=
  ch = ' ' || ch = '\t' || ch = '\n' || ch = '\r'

/-- Trim leading whitespace from a character list. -/
def trimLeft (s : List Char) : List Char :=
  s.dropWhile isWS

/-- Model of `String.prototype.trim`: drop whitespace from both
ends. -/
def trimWS (s : List Char) : List Char :=
  (trimLeft (trimLeft s).reverse).reverse

/-- Split a character list at newline characters, as
`content.split('\n')` does (empty pieces are kept). -/
def splitNLAux : List Char → List Char → List (List Char)
  | [], acc => [acc.reverse]
  | ch :: rest, acc =>
      if ch = '\n' then acc.reverse :: splitNLAux rest []
      else splitNLAux rest (ch :: acc)

/-- Lines of a file body, as `content.split('\n')`. -/
def splitLines (s : List Char) : List (List Char) :=
  splitNLAux s []

/-- Accumulating pass for `tokens`. -/
def tokensAux : List Char → List Char → List (List Char)
  | [], acc => if acc = [] then [] else [acc.reverse]
  | ch :: rest, acc =>
      if isWS ch then
        (if acc = [] then tokensAux rest []
         else acc.reverse :: tokensAux rest [])
      else tokensAux rest (ch :: acc)

/-- Model of `line.trim().split(/\s+/)`: the maximal runs of
non-whitespace characters, except that a blank line yields a single
empty token (JavaScript `''.split(/\s+/)` is `['']`). -/
def tokens (s : List Char) : List (List Char) :=
  match tokensAux s [] with
  | [] => [[]]
  | ts => ts

/-- Model of `parseInt` on the numeric fields of the input files: the
value of the leading digit run (the sign, base-prefix and `NaN` cases
of `parseInt` are never exercised by well-formed annotation or BED
lines). -/
def parseIntNat (s : List Char) : Nat :=
  digitsToNat (s.takeWhile Char.isDigit)

/-- Field `i` of a tokenized line (`tokens[i]`, with JavaScript
`undefined` for a missing field modelled as the empty token). -/
def tokenAt (ts : List (List Char)) (i : Nat) : List Char :=
  ts.getD i []

/-- Function `parseChromSizeFile`: each trimmed line is
`name size`; the first occurrence of a name creates a chromosome,
later duplicates are ignored. -/
def parseChromSizeFile (fileContent : String)
    (chromosomes : List Chromosome) : List Chromosome :=
  (splitLines (trimWS fileContent.data)).foldl
    (fun chs line =>
      let ts := tokens line
      let chrName := String.mk (tokenAt ts 0)
      if chs.any (fun c => c.name = chrName) then chs
      else chs ++ [mkChromosome chrName (parseIntNat (tokenAt ts 1))])
    chromosomes

/-- Apply `f` to the chromosome registered under `chrName`, modelling
a write through the collection's name-keyed `map` (the parsers keep
names unique, so the first match is the mapped object). -/
def applyToChrom (chs : List Chromosome) (chrName : String)
    (f : Chromosome → Chromosome) : List Chromosome :=
  match chs with
  | [] => []
  | c :: rest =>
      if c.name = chrName then f c :: rest
      else c :: applyToChrom rest chrName f

/-- Function `addBedData`: `null` (here `none`) for a falsy file body
(a failed read or an empty string); otherwise initialize the label on
every chromosome, then rasterize each BED line onto the chromosome its
first field names, silently dropping lines whose chromosome is not in
the collection. -/
def addBedData (scale : Nat) (bedFileContent : Option String)
    (label : String) (chromosomes : List Chromosome) :
    Option (List Chromosome) :=
  match bedFileContent with
  | none => none
  | some str =>
      if str = "" then none
      else some (
        (splitLines (trimWS str.data)).foldl
          (fun chs line =>
            let ts := tokens line
            let bedEntry : Region :=
              { chr := String.mk (tokenAt ts 0)
                start := parseIntNat (tokenAt ts 1)
                chromEnd := parseIntNat (tokenAt ts 2)
                name := "" }
            if chs.any (fun c => c.name = bedEntry.chr) then
              applyToChrom chs bedEntry.chr
                (fun c => addData scale c label bedEntry)
            else chs)
          (chromosomes.map (fun c => initData c label)))

/-- One step of the valid-dataset accounting in `drawGenomePlot`: a
falsy file leaves the chromosome collection and the valid count alone,
a successful `addBedData` advances both. -/
def processBedFilesStep (scale : Nat) (st : List Chromosome × Nat)
    (p : Option String × String) : List Chromosome × Nat :=
  match addBedData scale p.1 p.2 st.1 with
  | none => st
  | some chs => (chs, st.2 + 1)

/-- The `bedFiles.map(addBedData).filter(result => !!result)` pass of
`drawGenomePlot`, folded over the (file body, label) pairs: the final
chromosome collection together with `validBedFiles.length`. -/
def processBedFiles (scale : Nat) (files : List (Option String × String))
    (chromosomes : List Chromosome) : List Chromosome × Nat :=
  files.foldl (processBedFilesStep scale) (chromosomes, 0)

/-- Per-entry figure height from `drawGenomePlot`:
`validBedFiles.length * (height + inGap)` plus the cytoband height or
the chromosome-bar height. -/
def svgEntryHeight (validCount : Nat) (height inGap cytobandHeight
    chromosomeBarHeight : ℚ) (hasCytobandIdeo : Bool) : ℚ :=
  validCount * (height + inGap) +
    (if hasCytobandIdeo then cytobandHeight else chromosomeBarHeight)

/-- Fold a sequence of `addCytoband` calls, as `parseCytobandIdeoFile`
performs for the bands belonging to one chromosome. -/
def addCytobands (c : Chromosome) (bands : List Cytoband) : Chromosome :=
  bands.foldl addCytoband c

/-- Rasterize a whole dataset (one `addData` call per BED entry) onto
one chromosome under one label. -/
def applyBedEntries (scale : Nat) (c : Chromosome) (label : String)
    (entries : List Region) : Chromosome :=
  entries.foldl (fun ch e => addData scale ch label e) c

theorem jsGet_nil (j : Nat) : jsGet [] j = 0 := rfl

theorem jsGet_jsSet (arr : List Nat) (i v j : Nat) :
    jsGet (jsSet arr i v) j = if j = i then v else jsGet arr j := by
  unfold jsGet jsSet
  rcases Nat.lt_or_ge i arr.length with hi | hi
  · rw [if_pos hi, List.getD_eq_getElem?_getD, List.getD_eq_getElem?_getD,
      List.getElem?_set]
    rcases eq_or_ne j i with rfl | hne
    · simp [hi]
    · simp [Ne.symm hne, hne]
  · rw [if_neg (Nat.not_lt.mpr hi), List.getD_eq_getElem?_getD,
      List.getD_eq_getElem?_getD, List.append_assoc, List.getElem?_append]
    rcases Nat.lt_or_ge j arr.length with hj | hj
    · rw [if_pos hj, if_neg (by omega)]
    · rw [if_neg (Nat.not_lt.mpr hj), List.getElem?_append,
        List.getElem?_eq_none hj]
      rcases Nat.lt_or_ge j i with hji | hji
      · rw [if_pos (by simp [List.length_replicate]; omega),
          List.getElem?_replicate, if_pos (by omega), if_neg (by omega)]
        rfl
      · rw [if_neg (by simp [List.length_replicate]; omega)]
        rcases eq_or_ne j i with rfl | hne
        · have : j - arr.length - (List.replicate (j - arr.length)
            (0 : Nat)).length = 0 := by
            simp [List.length_replicate]
          rw [this, if_pos rfl]
          rfl
        · rw [if_neg hne]
          have : ([v] : List Nat)[j - arr.length -
              (List.replicate (i - arr.length) (0 : Nat)).length]? = none := by
            apply List.getElem?_eq_none
            simp [List.length_replicate]
            omega
          rw [this]

theorem length_jsSet (arr : List Nat) (i v : Nat) :
    (jsSet arr i v).length = max arr.length (i + 1) := by
  unfold jsSet
  rcases Nat.lt_or_ge i arr.length with hi | hi
  · rw [if_pos hi, List.length_set]
    omega
  · rw [if_neg (Nat.not_lt.mpr hi)]
    simp only [List.length_append, List.length_replicate,
      List.length_singleton]
    omega

theorem length_bumpBin (arr : List Nat) (i : Nat) :
    (bumpBin arr i).length = max arr.length (i + 1) :=
  length_jsSet arr i _

theorem jsGet_foldl_bump (L : List Nat) (arr : List Nat) (j : Nat) :
    jsGet (L.foldl bumpBin arr) j = jsGet arr j + L.count j := by
  induction L generalizing arr with
  | nil => simp
  | cons i L ih =>
      rw [List.foldl_cons, ih, List.count_cons]
      unfold bumpBin
      rw [jsGet_jsSet]
      rcases eq_or_ne j i with rfl | hne
      · simp only [if_pos rfl, beq_self_eq_true, if_true]
        omega
      · have hb : (i == j) = false := by simpa using Ne.symm hne
        rw [if_neg hne, hb]
        simp

theorem count_range' (lo n j : Nat) :
    (List.range' lo n).count j = if lo ≤ j ∧ j < lo + n then 1 else 0 := by
  induction n generalizing lo with
  | zero =>
      rw [if_neg (by omega)]
      rfl
  | succ n ih =>
      rw [List.range'_succ, List.count_cons, ih]
      rcases eq_or_ne lo j with rfl | hne
      · have hb : ((lo == lo) = true) := by simp
        rw [if_pos hb, if_neg (by omega), if_pos (by omega)]
      · have hb : (lo == j) = false := by simpa using hne
        rw [hb]
        simp only [Bool.false_eq_true, if_false, Nat.add_zero]
        by_cases hj : lo + 1 ≤ j ∧ j < lo + 1 + n
        · rw [if_pos hj, if_pos (by omega)]
        · rw [if_neg hj, if_neg (by omega)]

theorem jsGet_incrRange (arr : List Nat) (lo hi j : Nat) :
    jsGet (incrRange arr lo hi) j =
      jsGet arr j + (if lo ≤ j ∧ j ≤ hi then 1 else 0) := by
  unfold incrRange
  rw [jsGet_foldl_bump, count_range']
  rcases Nat.lt_or_ge hi lo with h | h
  · rw [if_neg (by omega), if_neg (by omega)]
  · by_cases hj : lo ≤ j ∧ j ≤ hi
    · rw [if_pos (by omega), if_pos hj]
    · rw [if_neg (by omega), if_neg hj]

theorem length_foldl_bump_range' (n : Nat) :
    ∀ (arr : List Nat) (lo : Nat),
      ((List.range' lo (n + 1)).foldl bumpBin arr).length =
        max arr.length (lo + n + 1) := by
  induction n with
  | zero =>
      intro arr lo
      simp [List.range'_succ, length_bumpBin]
  | succ n ih =>
      intro arr lo
      rw [List.range'_succ, List.foldl_cons, ih, length_bumpBin]
      omega

theorem length_incrRange (arr : List Nat) (lo hi : Nat) (h : lo ≤ hi) :
    (incrRange arr lo hi).length = max arr.length (hi + 1) := by
  unfold incrRange
  have hn : hi + 1 - lo = (hi - lo) + 1 := by omega
  rw [hn, length_foldl_bump_range']
  omega

theorem lookup_updateData_self (d : List (String × List Nat))
    (label : String) (f : List Nat → List Nat) :
    (updateData d label f).lookup label = (d.lookup label).map f := by
  induction d with
  | nil => simp [updateData]
  | cons kv rest ih =>
      obtain ⟨k, v⟩ := kv
      unfold updateData
      rcases eq_or_ne k label with rfl | hne
      · simp [List.lookup_cons]
      · simp only [if_neg hne, List.lookup_cons]
        have : (label == k) = false := by
          simpa using Ne.symm hne
        rw [this]
        exact ih

theorem lookup_updateData_ne (d : List (String × List Nat))
    (label lbl : String) (f : List Nat → List Nat) (h : lbl ≠ label) :
    (updateData d label f).lookup lbl = d.lookup lbl := by
  induction d with
  | nil => simp [updateData]
  | cons kv rest ih =>
      obtain ⟨k, v⟩ := kv
      unfold updateData
      rcases eq_or_ne k label with rfl | hne
      · have : (lbl == k) = false := by simpa using h
        simp [List.lookup_cons, this]
      · simp only [if_neg hne, List.lookup_cons]
        rcases eq_or_ne lbl k with rfl | hne2
        · simp
        · have hb : (lbl == k) = false := by simpa using hne2
          rw [hb]
          exact ih

theorem addData_chr (scale : Nat) (c : Chromosome) (label : String)
    (bed : Region) : (addData scale c label bed).chr = c.chr := by
  unfold addData
  split <;> rfl

theorem addData_lookup_isSome (scale : Nat) (c : Chromosome)
    (label lbl : String) (bed : Region) :
    (((addData scale c label bed).data.lookup lbl).isSome) =
      ((c.data.lookup lbl).isSome) := by
  unfold addData
  split
  · rfl
  · rcases eq_or_ne lbl label with rfl | hne
    · simp only [lookup_updateData_self]
      rcases h : c.data.lookup lbl with _ | l0 <;> simp [h]
    · simp only [lookup_updateData_ne _ _ _ _ hne]

theorem binCount_addData (scale : Nat) (c : Chromosome) (label : String)
    (bed : Region) (hl : (c.data.lookup label).isSome) (i : Nat) :
    binCount (addData scale c label bed) label i =
      binCount c label i +
        (if c.chr = bed.chr ∧ jsRound bed.start scale ≤ i ∧
            i ≤ jsRound bed.chromEnd scale then 1 else 0) := by
  obtain ⟨l0, hl0⟩ := Option.isSome_iff_exists.mp hl
  unfold addData
  rcases eq_or_ne c.chr bed.chr with hchr | hchr
  · rw [if_neg (not_not_intro hchr)]
    unfold binCount
    simp only [lookup_updateData_self, hl0, Option.map_some', Option.getD_some]
    rw [jsGet_incrRange]
    by_cases hcond : jsRound bed.start scale ≤ i ∧
        i ≤ jsRound bed.chromEnd scale
    · rw [if_pos hcond, if_pos ⟨hchr, hcond⟩]
    · rw [if_neg hcond, if_neg (by tauto)]
  · rw [if_pos hchr, if_neg (by tauto), Nat.add_zero]

/-- Number of increments a dataset contributes to bin `i` of the
chromosome named `chrName`: one per BED entry that names that
chromosome and whose rounded span covers `i`. -/
def rasterContribution (scale : Nat) (chrName : String)
    (entries : List Region) (i : Nat) : Nat :=
  (entries.map fun e =>
    if chrName = e.chr ∧ jsRound e.start scale ≤ i ∧
        i ≤ jsRound e.chromEnd scale then 1 else 0).sum

theorem applyBedEntries_chr (scale : Nat) (c : Chromosome) (label : String)
    (entries : List Region) :
    (applyBedEntries scale c label entries).chr = c.chr := by
  induction entries generalizing c with
  | nil => rfl
  | cons e es ih =>
      unfold applyBedEntries at ih ⊢
      rw [List.foldl_cons, ih, addData_chr]

theorem applyBedEntries_lookup_isSome (scale : Nat) (c : Chromosome)
    (label lbl : String) (entries : List Region) :
    (((applyBedEntries scale c label entries).data.lookup lbl).isSome) =
      ((c.data.lookup lbl).isSome) := by
  induction entries generalizing c with
  | nil => rfl
  | cons e es ih =>
      unfold applyBedEntries at ih ⊢
      rw [List.foldl_cons, ih, addData_lookup_isSome]

theorem binCount_applyBedEntries (scale : Nat) (c : Chromosome)
    (label : String) (entries : List Region)
    (hl : (c.data.lookup label).isSome) (i : Nat) :
    binCount (applyBedEntries scale c label entries) label i =
      binCount c label i + rasterContribution scale c.chr entries i := by
  induction entries generalizing c with
  | nil => simp [applyBedEntries, rasterContribution]
  | cons e es ih =>
      unfold applyBedEntries at ih ⊢
      rw [List.foldl_cons, ih (addData scale c label e)
        (by rw [addData_lookup_isSome]; exact hl)]
      rw [binCount_addData scale c label e hl i, addData_chr]
      unfold rasterContribution
      rw [List.map_cons, List.sum_cons]
      omega

/-- C3: `addData` leaves the chromosome unchanged when the interval
names a different chromosome; otherwise, for an initialized label, it
adds exactly one to every bin from `round(start / S)` to
`round(end / S)` inclusive (absent entries reading as 0) and leaves
every other bin and every other label untouched; at scale 100 the
interval `(chr1, 250, 350)` increments exactly bins 3 and 4. -/
theorem addData_rasterizes (scale : Nat)
    (c : Chromosome) (label : String) (bed : Region) :
    (bed.chr ≠ c.chr → addData scale c label bed = c)
    ∧ (bed.chr = c.chr → (c.data.lookup label).isSome →
        ∀ i, binCount (addData scale c label bed) label i =
          binCount c label i +
            (if jsRound bed.start scale ≤ i ∧ i ≤ jsRound bed.chromEnd scale
             then 1 else 0))
    ∧ (∀ lbl, lbl ≠ label →
        (addData scale c label bed).data.lookup lbl = c.data.lookup lbl)
    ∧ (∀ i, binCount (addData 100 (initData (mkChromosome "chr1" 1000)
          "default") "default" ⟨"chr1", 250, 350, ""⟩) "default" i =
        if i = 3 ∨ i = 4 then 1 else 0) := by
  refine ⟨?_, ?_, ?_, ?_⟩
  · intro hne
    unfold addData
    rw [if_pos (fun h => hne h.symm)]
  · intro hchr hl i
    rw [binCount_addData scale c label bed hl i]
    by_cases hcond : jsRound bed.start scale ≤ i ∧
        i ≤ jsRound bed.chromEnd scale
    · rw [if_pos ⟨hchr.symm, hcond⟩, if_pos hcond]
    · rw [if_neg (by tauto), if_neg hcond]
  · intro lbl hne
    unfold addData
    split
    · rfl
    · exact lookup_updateData_ne _ _ _ _ hne
  · intro i
    have hdata : (addData 100 (initData (mkChromosome "chr1" 1000)
        "default") "default" ⟨"chr1", 250, 350, ""⟩).data =
        [("default", [0, 0, 0, 1, 1])] := by decide
    unfold binCount
    rw [hdata]
    have hlk : (List.lookup "default" [("default", [0, 0, 0, 1, 1])]) =
        some [0, 0, 0, 1, 1] := by decide
    rw [hlk, Option.getD_some]
    rcases i with _ | _ | _ | _ | _ | j
    · decide
    · decide
    · decide
    · decide
    · decide
    · rw [if_neg (by omega)]
      simp [jsGet]

/-- Witness for C3 at scale 100, `chr1`, interval `[250, 350]`,
bin 4. -/
theorem addData_rasterizes_witness :
    binCount (addData 100 (initData (mkChromosome "chr1" 1000) "default")
        "default" ⟨"chr1", 250, 350, ""⟩) "default" 4 =
      binCount (initData (mkChromosome "chr1" 1000) "default") "default" 4 +
        (if jsRound 250 100 ≤ 4 ∧ 4 ≤ jsRound 350 100 then 1 else 0) :=
  (addData_rasterizes 100 (initData (mkChromosome "chr1" 1000) "default")
    "default" ⟨"chr1", 250, 350, ""⟩).2.1 (by decide) (by decide) 4

/-- C7: rasterizing the same dataset twice in succession onto a freshly
initialized label yields bin counts exactly double those of a single
pass, at every bin index. -/
theorem applyBedEntries_twice_doubles (scale : Nat) (c : Chromosome)
    (label : String) (entries : List Region)
    (hl : c.data.lookup label = some []) :
    ∀ i, binCount (applyBedEntries scale
        (applyBedEntries scale c label entries) label entries) label i =
      2 * binCount (applyBedEntries scale c label entries) label i := by
  intro i
  have hsome : (c.data.lookup label).isSome = true := by rw [hl]; rfl
  have hsome2 : (((applyBedEntries scale c label entries).data.lookup
      label).isSome) = true := by
    rw [applyBedEntries_lookup_isSome]
    exact hsome
  have h1 := binCount_applyBedEntries scale c label entries hsome i
  have h2 := binCount_applyBedEntries scale
    (applyBedEntries scale c label entries) label entries hsome2 i
  rw [applyBedEntries_chr] at h2
  have h0 : binCount c label i = 0 := by
    unfold binCount
    rw [hl]
    simp [jsGet]
  rw [h2, h1, h0]
  omega

/-- Witness for C7 on one interval over `chr1`, checked at bin 3. -/
theorem applyBedEntries_twice_doubles_witness :
    binCount (applyBedEntries 100 (applyBedEntries 100
        (initData (mkChromosome "chr1" 1000) "default") "default"
        [⟨"chr1", 250, 350, ""⟩]) "default" [⟨"chr1", 250, 350, ""⟩])
        "default" 3 =
      2 * binCount (applyBedEntries 100
        (initData (mkChromosome "chr1" 1000) "default") "default"
        [⟨"chr1", 250, 350, ""⟩]) "default" 3 :=
  applyBedEntries_twice_doubles 100
    (initData (mkChromosome "chr1" 1000) "default") "default"
    [⟨"chr1", 250, 350, ""⟩] (by decide) 3

theorem lookup_append_of_none (d d2 : List (String × List Nat))
    (k : String) (h : d.lookup k = none) :
    (d ++ d2).lookup k = d2.lookup k := by
  induction d with
  | nil => rfl
  | cons kv rest ih =>
      obtain ⟨k0, v0⟩ := kv
      rw [List.cons_append, List.lookup_cons]
      rw [List.lookup_cons] at h
      rcases hb : (k == k0) with _ | _
      · rw [hb] at h
        exact ih h
      · rw [hb] at h
        simp at h

theorem jsRound_le_jsRound (a b s : Nat) (h : a ≤ b) :
    jsRound a s ≤ jsRound b s := by
  unfold jsRound
  exact Nat.div_le_div_right (by omega)

/-- C6 (amended): after `initData` the per-label count array is empty,
and each matching `addData` grows it to
`max(previous length, round(end / S) + 1)` — the array length tracks
the largest rasterized bin index, not `ceil(length / scale) + 1`. -/
theorem dataLength_tracks_bins (scale : Nat) :
    (∀ (c : Chromosome) (label : String), c.data.lookup label = none →
      (initData c label).data.lookup label = some [])
    ∧ (∀ (c : Chromosome) (label : String) (bed : Region) (l0 : List Nat),
        bed.chr = c.chr → bed.start ≤ bed.chromEnd →
        c.data.lookup label = some l0 →
        ((addData scale c label bed).data.lookup label).map List.length =
          some (max l0.length (jsRound bed.chromEnd scale + 1))) := by
  constructor
  · intro c label hnone
    unfold initData
    rw [if_neg (by rw [hnone]; simp)]
    simp only
    rw [lookup_append_of_none _ _ _ hnone, List.lookup_cons]
    simp
  · intro c label bed l0 hchr hse hl
    unfold addData
    rw [if_neg (not_not_intro hchr.symm)]
    simp only [lookup_updateData_self, hl, Option.map_some']
    rw [length_incrRange _ _ _
      (jsRound_le_jsRound bed.start bed.chromEnd scale hse)]

/-- Witness for C6 (amended) at scale 100 on a fresh label and the
interval `[250, 350]`: the array reaches length `max 0 5 = 5`. -/
theorem dataLength_tracks_bins_witness :
    ((addData 100 (initData (mkChromosome "chr1" 1000) "default")
        "default" ⟨"chr1", 250, 350, ""⟩).data.lookup "default").map
      List.length = some (max ([] : List Nat).length
        (jsRound 350 100 + 1)) :=
  (dataLength_tracks_bins 100).2
    (initData (mkChromosome "chr1" 1000) "default") "default"
    ⟨"chr1", 250, 350, ""⟩ [] (by decide) (by decide) (by decide)

/-- C6 counterexample: with sizes file `chr1 1000` / `chr2 500` at
scale 100 and the dataset holding the single line `chr1 250 350`, the
ingested `default` arrays have lengths 5 and 0 — not the
`ceil(length / scale) + 1` values 11 and 6 the claim requires. -/
theorem dataLength_counterexample :
    ((addBedData 100 (some "chr1 250 350") "default"
        (parseChromSizeFile "chr1 1000\nchr2 500" [])).map
      (fun chs => chs.map (fun ch => (ch.name,
        ((ch.data.lookup "default").getD []).length)))) =
      some [("chr1", 5), ("chr2", 0)]
    ∧ (5 : Nat) ≠ 11 ∧ (0 : Nat) ≠ 6 :=
  ⟨by decide, by decide, by decide⟩

/-- C2: `filterChromosome` returns the canonically sorted collection
restricted to the union predicate
`(includeNonRegular ∨ isRegular) ∨ (includeMito ∧ isMitochondrial)`;
in particular `chrM` fails the regular-name test yet is retained when
`includeMito` is set even with `includeNonRegular` clear. -/
theorem filterChromosome_spec :
    (∀ (l : List Chromosome) (inr inm : Bool) (c : Chromosome),
      c ∈ filterChromosome l inr inm ↔
        c ∈ l ∧ ((inr || c.isRegular) || (inm && c.isMitochondrial)) = true)
    ∧ (∀ (l : List Chromosome) (inr inm : Bool),
        List.Sorted chromLE (filterChromosome l inr inm))
    ∧ (mkChromosome "chrM" 16569).isRegular = false
    ∧ (mkChromosome "chrM" 16569).isMitochondrial = true
    ∧ mkChromosome "chrM" 16569 ∈
        filterChromosome [mkChromosome "chrM" 16569] false true := by
  refine ⟨?_, ?_, by decide, by decide, by decide⟩
  · intro l inr inm c
    unfold filterChromosome canonicalSort
    rw [List.mem_filter]
    constructor
    · rintro ⟨hmem, hp⟩
      exact ⟨(List.perm_insertionSort chromLE l).mem_iff.mp hmem, hp⟩
    · rintro ⟨hmem, hp⟩
      exact ⟨(List.perm_insertionSort chromLE l).mem_iff.mpr hmem, hp⟩
  · intro l inr inm
    unfold filterChromosome canonicalSort
    exact (List.sorted_insertionSort chromLE l).filter _

/-- C4: geometry resolution of `drawSelf` — exactly two arms around
the centromere when cytobands and a centromere exist, one
whole-chromosome arm with cytobands but no centromere, and the
flat-bar terminal path when the chromosome owns no cytobands;
concretely, length 1000 with a single `acen` band `[100, 120)`
resolves to arms `[0, 100)` and `(120, 1000]`. -/
theorem drawSelf_mode (scale : Nat) (c : Chromosome) (h0 : c.start = 0) :
    (∀ cen, c.cytobands ≠ [] → c.centromere = some cen →
      drawSelf scale c = ChromosomeRender.arms
        [⟨c.chr, 0, cen.start, c.name ++ "_arm_1"⟩,
         ⟨c.chr, cen.chromEnd, c.chromEnd, c.name ++ "_arm_2"⟩])
    ∧ (c.cytobands ≠ [] → c.centromere = none →
        drawSelf scale c = ChromosomeRender.arms
          [⟨c.chr, 0, c.chromEnd, c.name⟩])
    ∧ (c.cytobands = [] →
        drawSelf scale c =
          ChromosomeRender.bar ((c.chromEnd : ℚ) / (scale : ℚ)))
    ∧ drawSelf 1 (addCytoband (mkChromosome "chrT" 1000)
        ⟨"chrT", 100, 120, "cen1", "acen"⟩) = ChromosomeRender.arms
        [⟨"chrT", 0, 100, "chrT_arm_1"⟩,
         ⟨"chrT", 120, 1000, "chrT_arm_2"⟩] := by
  refine ⟨?_, ?_, ?_, by decide⟩
  · intro cen hcy hcen
    unfold drawSelf
    rw [if_pos (by simpa [List.length_eq_zero] using hcy), hcen, h0]
  · intro hcy hcen
    unfold drawSelf
    rw [if_pos (by simpa [List.length_eq_zero] using hcy), hcen, h0]
  · intro hcy
    unfold drawSelf
    rw [if_neg (by simp [hcy])]

/-- Witness for C4 on the length-1000 chromosome with a single `acen`
band. -/
theorem drawSelf_mode_witness :
    drawSelf 1 (addCytoband (mkChromosome "chrT" 1000)
        ⟨"chrT", 100, 120, "cen1", "acen"⟩) = ChromosomeRender.arms
      [⟨"chrT", 0, 100, "chrT_arm_1"⟩,
       ⟨"chrT", 120, 1000, "chrT_arm_2"⟩] :=
  (drawSelf_mode 1 (addCytoband (mkChromosome "chrT" 1000)
      ⟨"chrT", 100, 120, "cen1", "acen"⟩) (by decide)).1
    ⟨"chrT", 100, 120, "cen1", "acen"⟩ (by decide) (by decide)

theorem addCytoband_cytobands (c : Chromosome) (band : Cytoband) :
    (addCytoband c band).cytobands =
      List.insertionSort cytoLE (c.cytobands ++ [band]) := rfl

theorem addCytoband_chromEnd (c : Chromosome) (band : Cytoband) :
    (addCytoband c band).chromEnd =
      if c.chromEnd < band.chromEnd then band.chromEnd else c.chromEnd := rfl

/-- C8: every `addCytoband` call keeps the cytoband list canonically
sorted and the chromosome length at or above every owned band end; the
length never shrinks, and grows to the new band's end exactly when
that end extends past the current length. -/
theorem addCytoband_invariant (c : Chromosome) (band : Cytoband)
    (hinv : ∀ b ∈ c.cytobands, b.chromEnd ≤ c.chromEnd) :
    List.Sorted cytoLE (addCytoband c band).cytobands
    ∧ (∀ b ∈ (addCytoband c band).cytobands,
        b.chromEnd ≤ (addCytoband c band).chromEnd)
    ∧ c.chromEnd ≤ (addCytoband c band).chromEnd
    ∧ (c.chromEnd < band.chromEnd →
        (addCytoband c band).chromEnd = band.chromEnd) := by
  refine ⟨?_, ?_, ?_, ?_⟩
  · rw [addCytoband_cytobands]
    exact List.sorted_insertionSort cytoLE _
  · intro b hb
    rw [addCytoband_cytobands] at hb
    have hmem : b ∈ c.cytobands ++ [band] :=
      (List.perm_insertionSort cytoLE _).mem_iff.mp hb
    rw [addCytoband_chromEnd]
    rcases List.mem_append.mp hmem with hmem | hmem
    · have := hinv b hmem
      split <;> omega
    · rw [List.mem_singleton.mp hmem]
      split <;> omega
  · rw [addCytoband_chromEnd]
    split <;> omega
  · intro h
    rw [addCytoband_chromEnd, if_pos h]

/-- Witness for C8: a band reaching past the declared length grows the
chromosome end to 150 and the invariant holds afterwards. -/
theorem addCytoband_invariant_witness :
    (addCytoband (mkChromosome "chr1" 100)
        ⟨"chr1", 40, 150, "q1", "gneg"⟩).chromEnd = 150 :=
  (addCytoband_invariant (mkChromosome "chr1" 100)
      ⟨"chr1", 40, 150, "q1", "gneg"⟩ (by decide)).2.2.2 (by decide)

/-- C10: an empty dataset string is falsy, so `addBedData` returns
`null` exactly as a failed read does: no label is initialized, the
chromosome collection is untouched, and the dataset is excluded from
the valid-dataset count that sets the per-entry figure height. -/
theorem addBedData_empty_string :
    (∀ (scale : Nat) (label : String) (chromosomes : List Chromosome),
      addBedData scale (some "") label chromosomes = none)
    ∧ (∀ (scale : Nat) (label : String) (chromosomes : List Chromosome),
        addBedData scale none label chromosomes = none)
    ∧ (∀ (scale : Nat) (st : List Chromosome × Nat) (lbl : String),
        processBedFilesStep scale st (some "", lbl) = st
        ∧ processBedFilesStep scale st (none, lbl) = st)
    ∧ (∀ (scale : Nat) (pre post : List (Option String × String))
        (lbl : String) (chromosomes : List Chromosome),
        processBedFiles scale (pre ++ (some "", lbl) :: post) chromosomes =
          processBedFiles scale (pre ++ post) chromosomes)
    ∧ (∀ (scale : Nat) (pre post : List (Option String × String))
        (lbl : String) (chromosomes : List Chromosome)
        (height inGap cytobandHeight chromosomeBarHeight : ℚ)
        (hasCyto : Bool),
        svgEntryHeight (processBedFiles scale
            (pre ++ (some "", lbl) :: post) chromosomes).2
          height inGap cytobandHeight chromosomeBarHeight hasCyto =
        svgEntryHeight (processBedFiles scale (pre ++ post) chromosomes).2
          height inGap cytobandHeight chromosomeBarHeight hasCyto) := by
  have hsome : ∀ (scale : Nat) (label : String)
      (chromosomes : List Chromosome),
      addBedData scale (some "") label chromosomes = none := by
    intro scale label chromosomes
    rfl
  have hstep : ∀ (scale : Nat) (st : List Chromosome × Nat) (lbl : String),
      processBedFilesStep scale st (some "", lbl) = st
      ∧ processBedFilesStep scale st (none, lbl) = st := by
    intro scale st lbl
    constructor
    · unfold processBedFilesStep
      rw [hsome]
    · rfl
  have hfold : ∀ (scale : Nat) (pre post : List (Option String × String))
      (lbl : String) (chromosomes : List Chromosome),
      processBedFiles scale (pre ++ (some "", lbl) :: post) chromosomes =
        processBedFiles scale (pre ++ post) chromosomes := by
    intro scale pre post lbl chromosomes
    unfold processBedFiles
    rw [List.foldl_append, List.foldl_append, List.foldl_cons,
      (hstep scale _ lbl).1]
  refine ⟨hsome, fun _ _ _ => rfl, hstep, hfold, ?_⟩
  intro scale pre post lbl chromosomes height inGap ch bh hasCyto
  rw [hfold]

theorem addCytoband_centromere (c : Chromosome) (band : Cytoband) :
    (addCytoband c band).centromere =
      if band.gieStain = "acen" then
        match c.centromere with
        | some existing => some (concatRegion existing band)
        | none => some band
      else c.centromere := rfl

/-- Maximum band end over a band list, folded from an initial value,
mirroring repeated end-only centromere extension. -/
def maxEndFold (init : Nat) (bs : List Cytoband) : Nat :=
  bs.foldl (fun m b => max m b.chromEnd) init

/-- The centromere record resulting from merging the band list `bs`
into an existing centromere `cen`: only the end moves. -/
def mergedCytoband (cen : Cytoband) (bs : List Cytoband) : Cytoband :=
  { cen with chromEnd := maxEndFold cen.chromEnd bs }

theorem centromere_fold_some (bands : List Cytoband) :
    ∀ (c : Chromosome) (cen : Cytoband), c.centromere = some cen →
      (addCytobands c bands).centromere =
        some (mergedCytoband cen
          (bands.filter (fun b => b.gieStain == "acen"))) := by
  induction bands with
  | nil =>
      intro c cen hc
      rw [show addCytobands c [] = c from rfl, hc]
      rfl
  | cons b bs ih =>
      intro c cen hc
      rw [show addCytobands c (b :: bs) =
        addCytobands (addCytoband c b) bs from rfl]
      rcases hstain : (b.gieStain == "acen") with _ | _
      · have hne : b.gieStain ≠ "acen" := by simpa using hstain
        have hcen : (addCytoband c b).centromere = some cen := by
          rw [addCytoband_centromere, if_neg hne, hc]
        rw [ih _ _ hcen, List.filter_cons, hstain]
        simp only [Bool.false_eq_true, if_false]
      · have heq : b.gieStain = "acen" := by simpa using hstain
        have hcen : (addCytoband c b).centromere =
            some (concatRegion cen b) := by
          rw [addCytoband_centromere, if_pos heq, hc]
        rw [ih _ _ hcen, List.filter_cons, hstain]
        simp only [if_true]
        rfl

/-- C5: over any sequence of `addCytoband` calls on a chromosome with
no centromere yet, the first `acen` band becomes the centromere and
every later `acen` band only extends its end: afterwards the
centromere start is the first `acen` band's start and the centromere
end is the maximum end over all `acen` bands, in any arrival order.
The `concat` merge is modelled from the spec (end-only extension),
since `ChromRegion.concat` is external to the repository. -/
theorem centromere_merge (c0 : Chromosome) (bands : List Cytoband)
    (hnone : c0.centromere = none) (a : Cytoband) (rest : List Cytoband)
    (hacen : bands.filter (fun b => b.gieStain == "acen") = a :: rest) :
    (addCytobands c0 bands).centromere = some (mergedCytoband a rest) := by
  induction bands generalizing c0 with
  | nil => simp at hacen
  | cons b bs ih =>
      rw [show addCytobands c0 (b :: bs) =
        addCytobands (addCytoband c0 b) bs from rfl]
      rw [List.filter_cons] at hacen
      rcases hstain : (b.gieStain == "acen") with _ | _
      · rw [hstain] at hacen
        simp only [Bool.false_eq_true, if_false] at hacen
        have hne : b.gieStain ≠ "acen" := by simpa using hstain
        have hcen : (addCytoband c0 b).centromere = none := by
          rw [addCytoband_centromere, if_neg hne, hnone]
        exact ih _ hcen hacen
      · rw [hstain] at hacen
        simp only [if_true, List.cons.injEq] at hacen
        obtain ⟨rfl, hrest⟩ := hacen
        have heq : b.gieStain = "acen" := by simpa using hstain
        have hcen : (addCytoband c0 b).centromere = some b := by
          rw [addCytoband_centromere, if_pos heq, hnone]
        rw [centromere_fold_some bs _ b hcen, hrest]

/-- Witness for C5: two overlapping `acen` bands where the later one
starts earlier; the centromere keeps the first band's start 100 and
takes the maximal end 120. -/
theorem centromere_merge_witness :
    (addCytobands (mkChromosome "chrT" 1000)
        [⟨"chrT", 100, 120, "a1", "acen"⟩,
         ⟨"chrT", 90, 110, "a2", "acen"⟩]).centromere =
      some (mergedCytoband ⟨"chrT", 100, 120, "a1", "acen"⟩
        [⟨"chrT", 90, 110, "a2", "acen"⟩]) :=
  centromere_merge (mkChromosome "chrT" 1000)
    [⟨"chrT", 100, 120, "a1", "acen"⟩, ⟨"chrT", 90, 110, "a2", "acen"⟩]
    (by decide) ⟨"chrT", 100, 120, "a1", "acen"⟩
    [⟨"chrT", 90, 110, "a2", "acen"⟩] (by decide)

/-- C9: the stain-to-opacity resolver returns 0 for `gneg`, the
clamped `NN/100` for `gpos<NN>` (saturating at 1 above 100), 1 for
`gpos100` and `gvar`, 0.75 for `stalk` and 0 for anything
unrecognized, so the result always lies in `[0, 1]`; and while drawing
an arm, exactly the overlapping bands with stain `gvar` or `stalk`
receive a hatch-pattern fill layered after the normal fill. -/
theorem getCytobandOpacity_spec :
    getCytobandOpacity "gneg" = 0
    ∧ (∀ ds : List Char, ds ≠ [] → (∀ ch ∈ ds, ch.isDigit = true) →
        getCytobandOpacity (String.mk ('g' :: 'p' :: 'o' :: 's' :: ds)) =
          min ((digitsToNat ds : ℚ) / 100) 1)
    ∧ getCytobandOpacity "gpos100" = 1
    ∧ getCytobandOpacity "gvar" = 1
    ∧ getCytobandOpacity "stalk" = 3 / 4
    ∧ (∀ s : String, s ≠ "stalk" → s ≠ "gpos100" → s ≠ "gvar" →
        s ≠ "gneg" → gposDigits s.data = none → getCytobandOpacity s = 0)
    ∧ (∀ s : String, 0 ≤ getCytobandOpacity s ∧ getCytobandOpacity s ≤ 1)
    ∧ (∀ (arm : Region) (band : Cytoband),
        (FillInstr.hatch ∈ bandFillInstrs arm band ↔
          (overlapsRegion arm.chr arm.start arm.chromEnd band.chr
              band.start band.chromEnd = true
            ∧ (band.gieStain = "gvar" ∨ band.gieStain = "stalk"))))
    ∧ (∀ (arm : Region) (band : Cytoband),
        overlapsRegion arm.chr arm.start arm.chromEnd band.chr band.start
            band.chromEnd = true →
        (band.gieStain = "gvar" ∨ band.gieStain = "stalk") →
        bandFillInstrs arm band =
          [FillInstr.bandFill (getCytobandOpacity band.gieStain),
           FillInstr.hatch]) := by
  have hgneg : getCytobandOpacity "gneg" = 0 := by
    unfold getCytobandOpacity
    rw [if_neg (by decide), if_neg (by decide), if_neg (by decide),
      if_pos rfl]
  have hg100 : getCytobandOpacity "gpos100" = 1 := by
    unfold getCytobandOpacity
    rw [if_neg (by decide), if_pos rfl]
  have hgvar : getCytobandOpacity "gvar" = 1 := by
    unfold getCytobandOpacity
    rw [if_neg (by decide), if_neg (by decide), if_pos rfl]
  have hstalk : getCytobandOpacity "stalk" = 3 / 4 := by
    unfold getCytobandOpacity
    rw [if_pos rfl]
  refine ⟨hgneg, ?_, hg100, hgvar, hstalk, ?_, ?_, ?_, ?_⟩
  · intro ds hne hdig
    have h1 : String.mk ('g' :: 'p' :: 'o' :: 's' :: ds) ≠ "stalk" := by
      intro h
      have h2 := congrArg String.data h
      rw [show "stalk".data = ['s', 't', 'a', 'l', 'k'] from rfl] at h2
      injection h2 with ha _
      exact absurd ha (by decide)
    have h3 : String.mk ('g' :: 'p' :: 'o' :: 's' :: ds) ≠ "gvar" := by
      intro h
      have h2 := congrArg String.data h
      rw [show "gvar".data = ['g', 'v', 'a', 'r'] from rfl] at h2
      injection h2 with _ h2
      injection h2 with hb _
      exact absurd hb (by decide)
    have h4 : String.mk ('g' :: 'p' :: 'o' :: 's' :: ds) ≠ "gneg" := by
      intro h
      have h2 := congrArg String.data h
      rw [show "gneg".data = ['g', 'n', 'e', 'g'] from rfl] at h2
      injection h2 with _ h2
      injection h2 with hb _
      exact absurd hb (by decide)
    have hgd : gposDigits ('g' :: 'p' :: 'o' :: 's' :: ds) = some ds := by
      rw [show gposDigits ('g' :: 'p' :: 'o' :: 's' :: ds) =
        (if ds.takeWhile Char.isDigit = [] then none
         else some (ds.takeWhile Char.isDigit)) from rfl]
      rw [List.takeWhile_eq_self_iff.mpr hdig, if_neg hne]
    by_cases hds : ds = ['1', '0', '0']
    · subst hds
      have h100 : String.mk ('g' :: 'p' :: 'o' :: 's' ::
          ['1', '0', '0']) = "gpos100" := rfl
      rw [h100]
      unfold getCytobandOpacity
      rw [if_neg (by decide), if_pos rfl,
        show digitsToNat ['1', '0', '0'] = 100 from rfl]
      norm_num
    · have h2 : String.mk ('g' :: 'p' :: 'o' :: 's' :: ds) ≠ "gpos100" := by
        intro h
        have h2 := congrArg String.data h
        rw [show "gpos100".data =
          ['g', 'p', 'o', 's', '1', '0', '0'] from rfl] at h2
        injection h2 with _ h2
        injection h2 with _ h2
        injection h2 with _ h2
        injection h2 with _ h2
        exact absurd h2 hds
      unfold getCytobandOpacity
      rw [if_neg h1, if_neg h2, if_neg h3, if_neg h4,
        show (String.mk ('g' :: 'p' :: 'o' :: 's' :: ds)).data =
          'g' :: 'p' :: 'o' :: 's' :: ds from rfl, hgd]
      have hv0 : (0 : ℚ) ≤ (digitsToNat ds : ℚ) / 100 := by positivity
      simp only
      rw [if_neg (not_lt.mpr hv0)]
      by_cases h1v : 1 < (digitsToNat ds : ℚ) / 100
      · rw [if_pos h1v]
        exact (min_eq_right h1v.le).symm
      · rw [if_neg h1v]
        exact (min_eq_left (not_lt.mp h1v)).symm
  · intro s hs1 hs2 hs3 hs4 hnone
    unfold getCytobandOpacity
    rw [if_neg hs1, if_neg hs2, if_neg hs3, if_neg hs4, hnone]
  · intro s
    unfold getCytobandOpacity
    split_ifs with hs1 hs2 hs3 hs4
    · norm_num
    · norm_num
    · norm_num
    · norm_num
    · rcases hgd : gposDigits s.data with _ | ds
      · norm_num
      · simp only
        have hv0 : (0 : ℚ) ≤ (digitsToNat ds : ℚ) / 100 := by positivity
        rw [if_neg (not_lt.mpr hv0)]
        by_cases h1v : 1 < (digitsToNat ds : ℚ) / 100
        · rw [if_pos h1v]
          norm_num
        · rw [if_neg h1v]
          exact ⟨hv0, not_lt.mp h1v⟩
  · intro arm band
    unfold bandFillInstrs
    by_cases hov : overlapsRegion arm.chr arm.start arm.chromEnd band.chr
        band.start band.chromEnd = true
    · rw [if_pos hov]
      by_cases hgv : band.gieStain = "gvar"
      · simp [hgv, hov]
      · by_cases hst : band.gieStain = "stalk"
        · simp [hst, hov]
        · simp [hgv, hst, hov]
    · rw [if_neg hov]
      simp [hov]
  · intro arm band hov hstain
    unfold bandFillInstrs
    rw [if_pos hov]
    rcases hstain with h | h
    · simp [h]
    · simp [h]

/-- Witness for C9 at the stain `gpos75`, whose opacity is the clamp
of `75 / 100`. -/
theorem getCytobandOpacity_spec_witness :
    getCytobandOpacity (String.mk ('g' :: 'p' :: 'o' :: 's' ::
        ['7', '5'])) = min ((digitsToNat ['7', '5'] : ℚ) / 100) 1 :=
  getCytobandOpacity_spec.2.1 ['7', '5'] (by decide) (by decide)

theorem appendAt_length (s : List (List α)) (i : Nat) (x : α) :
    (appendAt s i x).length = s.length := by
  induction s generalizing i with
  | nil => rfl
  | cons hd rest ih =>
      cases i with
      | zero => rfl
      | succ i => simp [appendAt, ih]

theorem appendAt_getElem? (s : List (List α)) (i : Nat) (x : α) (k : Nat) :
    (appendAt s i x)[k]? =
      if k = i then (s[k]?).map (fun t => t ++ [x]) else s[k]? := by
  induction s generalizing i k with
  | nil =>
      rw [show appendAt ([] : List (List α)) i x = [] from rfl]
      rcases eq_or_ne k i with rfl | hne
      · simp
      · simp [hne]
  | cons hd rest ih =>
      cases i with
      | zero =>
          cases k with
          | zero => simp [appendAt]
          | succ k => simp [appendAt]
      | succ i =>
          cases k with
          | zero => simp [appendAt]
          | succ k =>
              rw [show appendAt (hd :: rest) (i + 1) x =
                hd :: appendAt rest i x from rfl]
              rw [List.getElem?_cons_succ, List.getElem?_cons_succ, ih]
              rcases eq_or_ne k i with rfl | hne
              · rw [if_pos rfl, if_pos rfl]
              · rw [if_neg hne, if_neg (by omega)]

theorem concat_getElem? (s : List α) (y : α) (k : Nat) :
    (s ++ [y])[k]? = if k = s.length then some y else s[k]? := by
  rcases Nat.lt_trichotomy k s.length with h | h | h
  · rw [List.getElem?_append, if_pos h, if_neg (by omega)]
  · subst h
    rw [List.getElem?_concat_length, if_pos rfl]
  · rw [List.getElem?_append_right (by omega), if_neg (by omega),
      List.getElem?_eq_none (l := s) (by omega),
      List.getElem?_eq_none (by simp; omega)]

/-- Half the (rounded-up) chromosome count: the number of stacks
`stackChromosomes` builds. -/
def halfLen (l : List α) : Nat :=
  (l.length + 1) / 2

/-- The `totalLength` local of `stackChromosomes`:
`parseInt((n + 1) / 2) * 2`. -/
def tlLen (l : List α) : Nat :=
  halfLen l * 2

theorem halfLen_le (l : List α) : halfLen l ≤ l.length := by
  unfold halfLen
  omega

theorem le_tlLen (l : List α) : l.length ≤ tlLen l := by
  unfold tlLen halfLen
  omega

theorem tlLen_div2 (l : List α) : tlLen l / 2 = halfLen l := by
  unfold tlLen
  omega

theorem stackCore_eq_fold (l : List α) :
    stackCore l = l.enum.foldl (stackStep (tlLen l)) [] := rfl

/-- Contents of stack `k` after the first `m` chromosomes have been
processed: a singleton holding element `k`, completed with element
`tlLen - 1 - k` once that index has been reached. -/
def expectedStack [Inhabited α] (l : List α) (m k : Nat) : Option (List α) :=
  if k < min m (halfLen l) then
    some ([l.getD k default] ++
      (if tlLen l - 1 - k < m
       then [l.getD (tlLen l - 1 - k) default] else []))
  else none

theorem expectedStack_succ [Inhabited α] (l : List α) (m k : Nat)
    (hm : m < l.length)
    (hk1 : ¬(m < halfLen l ∧ k = m))
    (hk2 : ¬(halfLen l ≤ m ∧ k = tlLen l - 1 - m)) :
    expectedStack l (m + 1) k = expectedStack l m k := by
  have e1 : halfLen l = (l.length + 1) / 2 := rfl
  have e2 : tlLen l = ((l.length + 1) / 2) * 2 := rfl
  unfold expectedStack
  by_cases h1 : k < min m (halfLen l)
  · rw [if_pos (show k < min (m + 1) (halfLen l) by omega), if_pos h1]
    by_cases h2 : tlLen l - 1 - k < m
    · rw [if_pos (show tlLen l - 1 - k < m + 1 by omega), if_pos h2]
    · rw [if_neg (show ¬ tlLen l - 1 - k < m + 1 by omega), if_neg h2]
  · rw [if_neg (show ¬ k < min (m + 1) (halfLen l) by omega), if_neg h1]

theorem stackCore_state [Inhabited α] (l : List α) :
    ∀ m, m ≤ l.length →
      ((l.enum.take m).foldl (stackStep (tlLen l)) []).length
          = min m (halfLen l)
      ∧ ∀ k, ((l.enum.take m).foldl (stackStep (tlLen l)) [])[k]?
          = expectedStack l m k := by
  intro m
  induction m with
  | zero =>
      intro _
      refine ⟨by simp, ?_⟩
      intro k
      rw [show expectedStack l 0 k = none by
        unfold expectedStack; rw [if_neg (by omega)]]
      simp
  | succ m ih =>
      intro hm1
      have e1 : halfLen l = (l.length + 1) / 2 := rfl
      have e2 : tlLen l = ((l.length + 1) / 2) * 2 := rfl
      have hmn : m < l.length := hm1
      obtain ⟨ihlen, ihget⟩ := ih (Nat.le_of_succ_le hm1)
      have hgetm : l.getD m default = l[m] := by
        rw [List.getD_eq_getElem?_getD, List.getElem?_eq_getElem hmn]
        rfl
      have htake : l.enum.take (m + 1) =
          l.enum.take m ++ [(m, l.getD m default)] := by
        rw [List.take_succ, List.getElem?_enum,
          List.getElem?_eq_getElem hmn, hgetm]
        rfl
      rw [htake, List.foldl_append, List.foldl_cons, List.foldl_nil]
      have hstep : stackStep (tlLen l)
          ((l.enum.take m).foldl (stackStep (tlLen l)) [])
          (m, l.getD m default) =
          if m < halfLen l then
            ((l.enum.take m).foldl (stackStep (tlLen l)) []) ++
              [[l.getD m default]]
          else appendAt ((l.enum.take m).foldl (stackStep (tlLen l)) [])
            (tlLen l - 1 - m) (l.getD m default) := by
        unfold stackStep
        rw [tlLen_div2]
      rw [hstep]
      by_cases hcase : m < halfLen l
      · rw [if_pos hcase]
        constructor
        · rw [List.length_append, ihlen]
          simp only [List.length_singleton]
          omega
        · intro k
          rw [concat_getElem?, ihlen]
          rcases eq_or_ne k (min m (halfLen l)) with hk | hk
          · rw [if_pos hk]
            have hkm : k = m := by omega
            subst hkm
            rw [show expectedStack l (k + 1) k =
              some [l.getD k default] by
                unfold expectedStack
                rw [if_pos (by omega), if_neg (by omega), List.append_nil]]
          · rw [if_neg hk, ihget k,
              (expectedStack_succ l m k hmn (by omega) (by omega)).symm]
      · rw [if_neg hcase]
        have hhalfpos : 1 ≤ halfLen l := by omega
        constructor
        · rw [appendAt_length, ihlen]
          omega
        · intro k
          rw [appendAt_getElem?]
          rcases eq_or_ne k (tlLen l - 1 - m) with rfl | hk
          · rw [if_pos rfl, ihget _]
            rw [show expectedStack l m (tlLen l - 1 - m) =
              some [l.getD (tlLen l - 1 - m) default] by
                unfold expectedStack
                rw [if_pos (by omega), if_neg (by omega), List.append_nil]]
            rw [show expectedStack l (m + 1) (tlLen l - 1 - m) =
              some ([l.getD (tlLen l - 1 - m) default] ++
                [l.getD m default]) by
                unfold expectedStack
                rw [if_pos (by omega), if_pos (by omega),
                  show tlLen l - 1 - (tlLen l - 1 - m) = m by omega]]
            rfl
          · rw [if_neg hk, ihget k,
              (expectedStack_succ l m k hmn (by omega) (by omega)).symm]

theorem stackCore_length [Inhabited α] (l : List α) :
    (stackCore l).length = halfLen l := by
  have h := (stackCore_state l l.length le_rfl).1
  rw [List.take_of_length_le (by rw [List.enum_length])] at h
  rw [stackCore_eq_fold, h]
  have := halfLen_le l
  omega

theorem stackCore_getElem? [Inhabited α] (l : List α) (k : Nat) :
    (stackCore l)[k]? = expectedStack l l.length k := by
  have h := (stackCore_state l l.length le_rfl).2 k
  rw [List.take_of_length_le (by rw [List.enum_length])] at h
  rw [stackCore_eq_fold, h]

theorem appendAt_flatten_perm (s : List (List α)) (i : Nat) (x : α)
    (h : i < s.length) :
    (appendAt s i x).flatten.Perm (s.flatten ++ [x]) := by
  induction s generalizing i with
  | nil => simp at h
  | cons hd rest ih =>
      cases i with
      | zero =>
          rw [show appendAt (hd :: rest) 0 x = (hd ++ [x]) :: rest from rfl]
          rw [List.flatten_cons, List.flatten_cons, List.append_assoc,
            List.append_assoc]
          exact List.Perm.append_left hd (List.perm_append_comm)
      | succ i =>
          rw [show appendAt (hd :: rest) (i + 1) x =
            hd :: appendAt rest i x from rfl]
          rw [List.flatten_cons, List.flatten_cons, List.append_assoc]
          exact List.Perm.append_left hd (ih i (by simpa using h))

theorem stackCore_flatten_perm [Inhabited α] (l : List α) :
    (stackCore l).flatten.Perm l := by
  suffices h : ∀ m, m ≤ l.length →
      ((l.enum.take m).foldl (stackStep (tlLen l)) []).flatten.Perm
        (l.take m) by
    have h2 := h l.length le_rfl
    rw [List.take_of_length_le (by rw [List.enum_length]),
      List.take_length] at h2
    rw [stackCore_eq_fold]
    exact h2
  intro m
  induction m with
  | zero =>
      intro _
      simp
  | succ m ih =>
      intro hm1
      have e1 : halfLen l = (l.length + 1) / 2 := rfl
      have e2 : tlLen l = ((l.length + 1) / 2) * 2 := rfl
      have hmn : m < l.length := hm1
      have hperm := ih (Nat.le_of_succ_le hm1)
      have hgetm : l.getD m default = l[m] := by
        rw [List.getD_eq_getElem?_getD, List.getElem?_eq_getElem hmn]
        rfl
      have htake : l.enum.take (m + 1) =
          l.enum.take m ++ [(m, l.getD m default)] := by
        rw [List.take_succ, List.getElem?_enum,
          List.getElem?_eq_getElem hmn, hgetm]
        rfl
      have htakel : l.take (m + 1) = l.take m ++ [l.getD m default] := by
        rw [List.take_succ, List.getElem?_eq_getElem hmn, hgetm]
        rfl
      rw [htake, htakel, List.foldl_append, List.foldl_cons, List.foldl_nil]
      have hstep : stackStep (tlLen l)
          ((l.enum.take m).foldl (stackStep (tlLen l)) [])
          (m, l.getD m default) =
          if m < halfLen l then
            ((l.enum.take m).foldl (stackStep (tlLen l)) []) ++
              [[l.getD m default]]
          else appendAt ((l.enum.take m).foldl (stackStep (tlLen l)) [])
            (tlLen l - 1 - m) (l.getD m default) := by
        unfold stackStep
        rw [tlLen_div2]
      rw [hstep]
      by_cases hcase : m < halfLen l
      · rw [if_pos hcase]
        rw [List.flatten_append]
        simp only [List.flatten_cons, List.flatten_nil, List.append_nil]
        exact hperm.append_right [l.getD m default]
      · rw [if_neg hcase]
        have hlen := (stackCore_state l m (Nat.le_of_succ_le hm1)).1
        have hin : tlLen l - 1 - m <
            ((l.enum.take m).foldl (stackStep (tlLen l)) []).length := by
          rw [hlen]
          omega
        exact (appendAt_flatten_perm _ _ _ hin).trans
          (hperm.append_right [l.getD m default])

/-- C1 (amended): `stackChromosomes` sorts canonically and produces
`ceil(n/2)` stacks that together hold every input chromosome exactly
once; writing `tl = 2 * ceil(n/2)`, stack `k` holds sorted element `k`
in front, completed by sorted element `tl - 1 - k` whenever that index
exists (`tl - 1 - k < n`).  For even `n` this pairs positions `k` and
`n - 1 - k`; for odd `n` stack 0 remains the singleton holding the
first sorted element and stack `k ≥ 1` pairs positions `k` and
`n - k` — not the middle-element singleton with `(k, n - 1 - k)`
pairing of the original claim.  Sorted `[c1..c8]` stacks to
`[[c1,c8],[c2,c7],[c3,c6],[c4,c5]]`. -/
theorem stackChromosomes_spec (l : List Chromosome) :
    (stackChromosomes l).length = (l.length + 1) / 2
    ∧ (stackChromosomes l).flatten.Perm l
    ∧ (∀ k, k < (l.length + 1) / 2 →
        (stackChromosomes l)[k]? = some (
          if ((l.length + 1) / 2) * 2 - 1 - k < l.length then
            [(canonicalSort l).getD k default,
             (canonicalSort l).getD ((((l.length + 1) / 2) * 2) - 1 - k)
               default]
          else [(canonicalSort l).getD k default]))
    ∧ (l.length % 2 = 1 → (stackChromosomes l)[0]? =
        some [(canonicalSort l).getD 0 default])
    ∧ stackChromosomes [mkChromosome "chr1" 80, mkChromosome "chr2" 70,
        mkChromosome "chr3" 60, mkChromosome "chr4" 50,
        mkChromosome "chr5" 40, mkChromosome "chr6" 30,
        mkChromosome "chr7" 20, mkChromosome "chr8" 10] =
      [[mkChromosome "chr1" 80, mkChromosome "chr8" 10],
       [mkChromosome "chr2" 70, mkChromosome "chr7" 20],
       [mkChromosome "chr3" 60, mkChromosome "chr6" 30],
       [mkChromosome "chr4" 50, mkChromosome "chr5" 40]] := by
  have hlen : (canonicalSort l).length = l.length :=
    List.length_insertionSort chromLE l
  have hhalf : halfLen (canonicalSort l) = (l.length + 1) / 2 := by
    unfold halfLen
    rw [hlen]
  have htl : tlLen (canonicalSort l) = ((l.length + 1) / 2) * 2 := by
    unfold tlLen
    rw [hhalf]
  have hform : ∀ k, k < (l.length + 1) / 2 →
      (stackChromosomes l)[k]? = some (
        if ((l.length + 1) / 2) * 2 - 1 - k < l.length then
          [(canonicalSort l).getD k default,
           (canonicalSort l).getD ((((l.length + 1) / 2) * 2) - 1 - k)
             default]
        else [(canonicalSort l).getD k default]) := by
    intro k hk
    rw [show stackChromosomes l = stackCore (canonicalSort l) from rfl,
      stackCore_getElem?]
    unfold expectedStack
    rw [hhalf, htl, hlen]
    rw [if_pos (by omega)]
    by_cases hc : ((l.length + 1) / 2) * 2 - 1 - k < l.length
    · rw [if_pos hc, if_pos hc]
      rfl
    · rw [if_neg hc, if_neg hc, List.append_nil]
  refine ⟨?_, ?_, hform, ?_, by decide⟩
  · rw [show stackChromosomes l = stackCore (canonicalSort l) from rfl,
      stackCore_length, hhalf]
  · exact (stackCore_flatten_perm (canonicalSort l)).trans
      (List.perm_insertionSort chromLE l)
  · intro hodd
    have hpos : 0 < (l.length + 1) / 2 := by omega
    rw [hform 0 hpos, if_neg (by omega)]

/-- Witness for C1 (amended): on a sorted odd-length list the first
stack is the singleton holding the first chromosome. -/
theorem stackChromosomes_spec_witness :
    (stackChromosomes [mkChromosome "chr1" 10, mkChromosome "chr2" 20,
        mkChromosome "chr3" 30])[0]? =
      some [(canonicalSort [mkChromosome "chr1" 10,
        mkChromosome "chr2" 20, mkChromosome "chr3" 30]).getD 0 default] :=
  (stackChromosomes_spec [mkChromosome "chr1" 10, mkChromosome "chr2" 20,
    mkChromosome "chr3" 30]).2.2.2.1 (by decide)

/-- C1 counterexample: on the canonically sorted three-chromosome list
the code yields `[[c1], [c2, c3]]` — stack 0 is the singleton holding
the FIRST element — whereas the claim requires stack 0 to pair
positions 0 and 2 (`[[c1, c3], [c2]]`, middle-element singleton). -/
theorem stackChromosomes_odd_counterexample :
    stackChromosomes [mkChromosome "chr1" 10, mkChromosome "chr2" 20,
        mkChromosome "chr3" 30] =
      [[mkChromosome "chr1" 10],
       [mkChromosome "chr2" 20, mkChromosome "chr3" 30]]
    ∧ canonicalSort [mkChromosome "chr1" 10, mkChromosome "chr2" 20,
        mkChromosome "chr3" 30] =
      [mkChromosome "chr1" 10, mkChromosome "chr2" 20,
       mkChromosome "chr3" 30]
    ∧ [[mkChromosome "chr1" 10],
       [mkChromosome "chr2" 20, mkChromosome "chr3" 30]] ≠
      [[mkChromosome "chr1" 10, mkChromosome "chr3" 30],
       [mkChromosome "chr2" 20]] :=
  ⟨by decide, by decide, by decide⟩
